import Mathlib

/-!
Verification of the outcome-statistics and record-transformation pipeline of
the wildbg repository: crates/engine/src/probabilities.rs (Probabilities,
ResultCounter) and crates/coach/src/data.rs (PositionRecord, InputsRecord).

Embedding conventions:
* Rust f32 values are embedded as exact rationals (ℚ); the claims under
  scrutiny are algebraic identities stated with a 1e-6 tolerance, far above
  any f32 rounding, so exact-rational arithmetic is the faithful abstraction.
* Rust u32 values are embedded as ℕ; u32 addition is the checked addition
  used by the Rust arithmetic on these counters (overflow is a panic, not a
  value), embedded as an Option-valued operation where none models the panic.
* The one f32 operation that can produce a non-finite value, division by a
  zero divisor in the From-ResultCounter conversion, is embedded as an
  Option-valued division where none models the non-finite result (NaN for
  a 0/0 division).
-/

/-- First natural number that does not fit in a u32. -/
def U32 : ℕ := 2 ^ 32

/-- Rust u32 addition: panics (none) on overflow, as in the checked builds
the repository is developed and tested under. -/
def checkedAdd (a b : ℕ) : Option ℕ :=
  if a + b < U32 then some (a + b) else none

/-- Embeds engine::probabilities::Probabilities: four f32 fields, here exact
rationals. -/
structure Probabilities where
  win_normal : ℚ
  win_gammon : ℚ
  lose_normal : ℚ
  lose_gammon : ℚ
  deriving DecidableEq

/-- Embeds Probabilities::win: win_normal + win_gammon. -/
def Probabilities.win (p : Probabilities) : ℚ :=
  p.win_normal + p.win_gammon

/-- Embeds Probabilities::switch_sides: a new value with win and lose
channels swapped pairwise; the receiver is untouched (pure value code). -/
def Probabilities.switch_sides (p : Probabilities) : Probabilities :=
  { win_normal := p.lose_normal
    win_gammon := p.lose_gammon
    lose_normal := p.win_normal
    lose_gammon := p.win_gammon }

/-- Embeds Probabilities::equity (cubeless equity). -/
def Probabilities.equity (p : Probabilities) : ℚ :=
  p.win_normal - p.lose_normal + 2 * (p.win_gammon - p.lose_gammon)

/-- C3: equity() computes (win_normal - lose_normal) + 2 * (win_gammon -
lose_gammon); it is exactly 1 on the pure win-normal distribution, 2 on pure
win-gammon, -1 on pure lose-normal, -2 on pure lose-gammon, 0 whenever
win_normal = lose_normal and win_gammon = lose_gammon, and lies in [-2, 2]
on every distribution with non-negative fields summing to 1. -/
theorem equity_formula_values_and_range :
    (∀ p : Probabilities,
      p.equity = p.win_normal - p.lose_normal + 2 * (p.win_gammon - p.lose_gammon))
    ∧ Probabilities.equity ⟨1, 0, 0, 0⟩ = 1
    ∧ Probabilities.equity ⟨0, 1, 0, 0⟩ = 2
    ∧ Probabilities.equity ⟨0, 0, 1, 0⟩ = -1
    ∧ Probabilities.equity ⟨0, 0, 0, 1⟩ = -2
    ∧ (∀ p : Probabilities, p.win_normal = p.lose_normal →
        p.win_gammon = p.lose_gammon → p.equity = 0)
    ∧ (∀ p : Probabilities, 0 ≤ p.win_normal → 0 ≤ p.win_gammon →
        0 ≤ p.lose_normal → 0 ≤ p.lose_gammon →
        p.win_normal + p.win_gammon + p.lose_normal + p.lose_gammon = 1 →
        -2 ≤ p.equity ∧ p.equity ≤ 2) := by
  refine ⟨fun p => rfl, by norm_num [Probabilities.equity],
    by norm_num [Probabilities.equity], by norm_num [Probabilities.equity],
    by norm_num [Probabilities.equity], fun p h1 h2 => ?_, fun p h1 h2 h3 h4 h5 => ?_⟩
  · simp [Probabilities.equity, h1, h2]
  · constructor <;> simp only [Probabilities.equity] <;> nlinarith

/-- Witness for the hypothesis-carrying conjuncts of
equity_formula_values_and_range, instantiated at concrete distributions. -/
theorem equity_formula_values_and_range_witness :
    Probabilities.equity ⟨1/3, 1/6, 1/3, 1/6⟩ = 0
    ∧ (-2 ≤ Probabilities.equity ⟨1/4, 1/4, 1/4, 1/4⟩
        ∧ Probabilities.equity ⟨1/4, 1/4, 1/4, 1/4⟩ ≤ 2) :=
  ⟨equity_formula_values_and_range.2.2.2.2.2.1 ⟨1/3, 1/6, 1/3, 1/6⟩ rfl rfl,
   equity_formula_values_and_range.2.2.2.2.2.2 ⟨1/4, 1/4, 1/4, 1/4⟩
     (by norm_num) (by norm_num) (by norm_num) (by norm_num) (by norm_num)⟩

/-- C5 (evaluation at the failing input): win() is win_normal + win_gammon,
so on the distribution {0.5, 0.2, 0.1, 0.07} it returns 0.7, not the 0.82
that the repository's own unit test (tests::win) asserts. -/
theorem win_formula_and_failing_test_input :
    (∀ p : Probabilities, p.win = p.win_normal + p.win_gammon)
    ∧ Probabilities.win ⟨1/2, 1/5, 1/10, 7/100⟩ = 7/10
    ∧ (7/10 : ℚ) ≠ 41/50 := by
  refine ⟨fun p => rfl, by norm_num [Probabilities.win], by norm_num⟩

/-- C7: switch_sides() swaps the win and lose channels pairwise and is an
involution, exactly (it only permutes fields). -/
theorem switch_sides_swap_involution :
    ∀ p : Probabilities,
      p.switch_sides = ⟨p.lose_normal, p.lose_gammon, p.win_normal, p.win_gammon⟩
      ∧ p.switch_sides.switch_sides = p := by
  intro p
  exact ⟨rfl, rfl⟩

/-- C10: switching sides negates the cubeless equity, with no precondition
on the fields. -/
theorem switch_sides_negates_equity :
    ∀ p : Probabilities, p.switch_sides.equity = -p.equity := by
  intro p
  simp only [Probabilities.switch_sides, Probabilities.equity]
  ring

/-- Embeds engine::position::GameResult (declared outside the two files under
study, but its contract is fixed by the spec and by the comment in
ResultCounter::num_of): four outcome categories whose discriminants 0..3 are
used as array indices. -/
inductive GameResult
  | WinNormal
  | WinGammon
  | LoseNormal
  | LoseGammon
  deriving DecidableEq

/-- The stable discriminant of a GameResult, starting at zero, used as the
index into the counter's result slots. -/
def GameResult.toIndex : GameResult → Fin 4
  | .WinNormal => 0
  | .WinGammon => 1
  | .LoseNormal => 2
  | .LoseGammon => 3

/-- Embeds engine::probabilities::ResultCounter: an array of four u32
counts indexed by GameResult discriminant. -/
structure ResultCounter where
  results : Fin 4 → ℕ

theorem ResultCounter.ext {c d : ResultCounter}
    (h : ∀ i, c.results i = d.results i) : c = d := by
  cases c
  cases d
  simp only [mk.injEq]
  funext i
  exact h i

/-- Embeds ResultCounter::default: all four counts are zero. -/
def ResultCounter.default : ResultCounter := ⟨fun _ => 0⟩

/-- Embeds ResultCounter::new: stores the four given u32 counts in
discriminant order. -/
def ResultCounter.new (win_normal win_gammon lose_normal lose_gammon : ℕ) :
    ResultCounter :=
  ⟨![win_normal, win_gammon, lose_normal, lose_gammon]⟩

/-- In-place write of one array slot, as performed by the indexed
assignments of ResultCounter::add and ResultCounter::add_results. -/
def writeSlot (f : Fin 4 → ℕ) (j : Fin 4) (v : ℕ) : Fin 4 → ℕ :=
  fun i => if i = j then v else f i

/-- Embeds ResultCounter::add: increments the slot of the given result by 1
(checked u32 addition; none is the overflow panic). The Rust method mutates
in place; the embedding returns the updated counter. -/
def ResultCounter.add (c : ResultCounter) (result : GameResult) :
    Option ResultCounter :=
  (checkedAdd (c.results result.toIndex) 1).map
    (fun v => ⟨writeSlot c.results result.toIndex v⟩)

/-- Embeds ResultCounter::add_results: increments the slot of the given
result by amount (checked u32 addition). -/
def ResultCounter.add_results (c : ResultCounter) (result : GameResult)
    (amount : ℕ) : Option ResultCounter :=
  (checkedAdd (c.results result.toIndex) amount).map
    (fun v => ⟨writeSlot c.results result.toIndex v⟩)

/-- Embeds ResultCounter::sum: the u32 iterator sum of the four slots,
folded left from 0 with checked additions. -/
def ResultCounter.sum (c : ResultCounter) : Option ℕ :=
  (((checkedAdd 0 (c.results 0)).bind
    (fun s => checkedAdd s (c.results 1))).bind
    (fun s => checkedAdd s (c.results 2))).bind
    (fun s => checkedAdd s (c.results 3))

/-- Embeds ResultCounter::num_of: the count stored in the slot indexed by
the result's discriminant. -/
def ResultCounter.num_of (c : ResultCounter) (result : GameResult) : ℕ :=
  c.results result.toIndex

/-- Embeds ResultCounter::combine: the element-wise u32 sum of the four
slots of both counters; none is the overflow panic of any slot. -/
def ResultCounter.combine (c counter : ResultCounter) : Option ResultCounter :=
  if ∀ i : Fin 4, c.results i + counter.results i < U32 then
    some ⟨fun i => c.results i + counter.results i⟩
  else
    none

theorem ResultCounter.sum_eq_some {c : ResultCounter} {n : ℕ} :
    c.sum = some n ↔
      c.results 0 + c.results 1 + c.results 2 + c.results 3 = n ∧ n < U32 := by
  simp only [ResultCounter.sum, checkedAdd, Nat.zero_add]
  constructor
  · intro h
    by_cases h0 : c.results 0 < U32
    · simp only [if_pos h0, Option.some_bind] at h
      by_cases h1 : c.results 0 + c.results 1 < U32
      · simp only [if_pos h1, Option.some_bind] at h
        by_cases h2 : c.results 0 + c.results 1 + c.results 2 < U32
        · simp only [if_pos h2, Option.some_bind] at h
          by_cases h3 : c.results 0 + c.results 1 + c.results 2 + c.results 3 < U32
          · simp only [if_pos h3, Option.some_inj] at h
            exact ⟨h, h ▸ h3⟩
          · simp [if_neg h3] at h
        · simp [if_neg h2] at h
      · simp [if_neg h1] at h
    · simp [if_neg h0] at h
  · intro ⟨h, hn⟩
    subst h
    have h0 : c.results 0 < U32 := by omega
    have h1 : c.results 0 + c.results 1 < U32 := by omega
    have h2 : c.results 0 + c.results 1 + c.results 2 < U32 := by omega
    simp [if_pos h0, if_pos h1, if_pos h2, if_pos hn]

/-- Embedded f32 division of the From-ResultCounter conversion: for a zero
divisor the f32 result is non-finite (NaN for the 0/0 case that arises from
an empty counter), embedded as none; otherwise the exact quotient. -/
def fdiv (a b : ℚ) : Option ℚ :=
  if b = 0 then none else some (a / b)

/-- The f32-level view of a Probabilities value as produced by the
From-ResultCounter conversion: in each field, none marks the non-finite
f32 value produced by a zero divisor. -/
structure RawProbabilities where
  win_normal : Option ℚ
  win_gammon : Option ℚ
  lose_normal : Option ℚ
  lose_gammon : Option ℚ
  deriving DecidableEq

/-- Embeds the impl From of ResultCounter references for Probabilities:
each field is the count of its category divided by the counter's sum. The
outer Option is the panic of sum() (checked u32 overflow); the inner
Options are non-finite f32 division results. -/
def Probabilities.fromCounter (value : ResultCounter) : Option RawProbabilities :=
  (value.sum).map (fun s =>
    { win_normal := fdiv (value.num_of .WinNormal) s
      win_gammon := fdiv (value.num_of .WinGammon) s
      lose_normal := fdiv (value.num_of .LoseNormal) s
      lose_gammon := fdiv (value.num_of .LoseGammon) s })

theorem ResultCounter.results_mk (f : Fin 4 → ℕ) (i : Fin 4) :
    (ResultCounter.mk f).results i = f i := rfl

instance : DecidableEq ResultCounter := fun c d =>
  decidable_of_iff
    (c.results 0 = d.results 0 ∧ c.results 1 = d.results 1
      ∧ c.results 2 = d.results 2 ∧ c.results 3 = d.results 3)
    ⟨fun h => ResultCounter.ext fun i => by fin_cases i <;> tauto,
     fun h => by rw [h]; exact ⟨rfl, rfl, rfl, rfl⟩⟩

/-- C2: a counter whose total() returns a positive value yields a
distribution whose four fractions are all finite and sum to exactly 1
(hence within 1e-6 of 1). -/
theorem fromCounter_fractions_sum_to_one :
    ∀ (c : ResultCounter) (n : ℕ), c.sum = some n → 0 < n →
      ∃ wn wg ln lg : ℚ,
        Probabilities.fromCounter c = some ⟨some wn, some wg, some ln, some lg⟩
        ∧ wn + wg + ln + lg = 1
        ∧ |wn + wg + ln + lg - 1| ≤ 1/1000000 := by
  intro c n hsum hn
  have hne : ((n : ℚ)) ≠ 0 := Nat.cast_ne_zero.mpr (by omega)
  obtain ⟨htot, -⟩ := ResultCounter.sum_eq_some.mp hsum
  refine ⟨c.results 0 / n, c.results 1 / n, c.results 2 / n, c.results 3 / n,
    ?_, ?_, ?_⟩
  · simp [Probabilities.fromCounter, hsum, fdiv, hne, ResultCounter.num_of,
      GameResult.toIndex]
  · have hcast : ((c.results 0 : ℚ)) + c.results 1 + c.results 2 + c.results 3
        = (n : ℚ) := by exact_mod_cast congrArg (Nat.cast : ℕ → ℚ) htot
    rw [div_add_div_same, div_add_div_same, div_add_div_same, hcast,
      div_self hne]
  · have hcast : ((c.results 0 : ℚ)) + c.results 1 + c.results 2 + c.results 3
        = (n : ℚ) := by exact_mod_cast congrArg (Nat.cast : ℕ → ℚ) htot
    rw [div_add_div_same, div_add_div_same, div_add_div_same, hcast,
      div_self hne]
    norm_num

/-- Witness for fromCounter_fractions_sum_to_one at the counter with counts
2, 1, 1, 4 and total 8. -/
theorem fromCounter_fractions_sum_to_one_witness :
    (ResultCounter.new 2 1 1 4).sum = some 8 ∧ 0 < 8
    ∧ ∃ wn wg ln lg : ℚ,
        Probabilities.fromCounter (ResultCounter.new 2 1 1 4)
          = some ⟨some wn, some wg, some ln, some lg⟩
        ∧ wn + wg + ln + lg = 1
        ∧ |wn + wg + ln + lg - 1| ≤ 1/1000000 :=
  ⟨by decide, by decide,
    fromCounter_fractions_sum_to_one (ResultCounter.new 2 1 1 4) 8
      (by decide) (by decide)⟩

/-- C6 (evaluation at the failing test input): the counter built by one
add(WinGammon), add_results(LoseNormal, 4) and add_results(LoseGammon, 8)
on a default counter holds counts 0, 1, 4, 8 with total 13, so the derived
fractions are 0, 1/13, 4/13 and 8/13, not the 1/32, 4/32 and 8/32 asserted
by the repository's own unit test (tests::from_result_counter). -/
theorem from_result_counter_failing_test :
    ((ResultCounter.default.add .WinGammon).bind
        (fun c => c.add_results .LoseNormal 4)).bind
        (fun c => c.add_results .LoseGammon 8)
      = some (ResultCounter.new 0 1 4 8)
    ∧ Probabilities.fromCounter (ResultCounter.new 0 1 4 8)
        = some ⟨some 0, some (1/13), some (4/13), some (8/13)⟩
    ∧ (1/13 : ℚ) ≠ 1/32 ∧ (4/13 : ℚ) ≠ 1/8 ∧ (8/13 : ℚ) ≠ 1/4 := by
  have hsum13 : (ResultCounter.new 0 1 4 8).sum = some 13 := by decide
  have hn0 : (ResultCounter.new 0 1 4 8).num_of .WinNormal = 0 := by decide
  have hn1 : (ResultCounter.new 0 1 4 8).num_of .WinGammon = 1 := by decide
  have hn2 : (ResultCounter.new 0 1 4 8).num_of .LoseNormal = 4 := by decide
  have hchain : ((ResultCounter.default.add .WinGammon).bind
        (fun c => c.add_results .LoseNormal 4)).bind
        (fun c => c.add_results .LoseGammon 8)
      = some ⟨writeSlot (writeSlot (writeSlot (fun _ => 0)
          (GameResult.toIndex .WinGammon) 1)
          (GameResult.toIndex .LoseNormal) 4)
          (GameResult.toIndex .LoseGammon) 8⟩ := rfl
  have hn3 : (ResultCounter.new 0 1 4 8).num_of .LoseGammon = 8 := by decide
  have hw : (⟨writeSlot (writeSlot (writeSlot (fun _ => 0)
        (GameResult.toIndex .WinGammon) 1)
        (GameResult.toIndex .LoseNormal) 4)
        (GameResult.toIndex .LoseGammon) 8⟩ : ResultCounter)
      = ResultCounter.new 0 1 4 8 :=
    ResultCounter.ext fun i => by fin_cases i <;> decide
  refine ⟨hchain.trans (congrArg some hw), ?_, by norm_num, by norm_num,
    by norm_num⟩
  simp only [Probabilities.fromCounter, hsum13, hn0, hn1, hn2, hn3]
  norm_num [Option.map_some', fdiv]

/-- C8: combine is the element-wise sum of the four count slots, and is
commutative and associative (panics included: both associations panic on
the same inputs). -/
theorem combine_elementwise_comm_assoc :
    ∀ a b c : ResultCounter,
      (∀ e, a.combine b = some e →
        ∀ i, e.results i = a.results i + b.results i)
      ∧ a.combine b = b.combine a
      ∧ (a.combine b).bind (fun e => e.combine c)
          = (b.combine c).bind (fun e => a.combine e) := by
  intro a b c
  refine ⟨?_, ?_, ?_⟩
  · intro e he i
    by_cases h : ∀ i : Fin 4, a.results i + b.results i < U32
    · simp only [ResultCounter.combine, if_pos h, Option.some_inj] at he
      rw [← he]
    · simp [ResultCounter.combine, if_neg h] at he
  · by_cases h : ∀ i : Fin 4, a.results i + b.results i < U32
    · have h' : ∀ i : Fin 4, b.results i + a.results i < U32 := fun i => by
        have := h i; omega
      simp only [ResultCounter.combine, if_pos h, if_pos h']
      exact congrArg some (ResultCounter.ext fun i => Nat.add_comm _ _)
    · have h' : ¬ ∀ i : Fin 4, b.results i + a.results i < U32 := fun hc =>
        h fun i => by have := hc i; omega
      simp [ResultCounter.combine, if_neg h, if_neg h']
  · by_cases hab : ∀ i : Fin 4, a.results i + b.results i < U32
    · by_cases hbc : ∀ i : Fin 4, b.results i + c.results i < U32
      · simp only [ResultCounter.combine, if_pos hab, if_pos hbc,
          Option.some_bind, ResultCounter.results_mk]
        by_cases h3 : ∀ i : Fin 4, a.results i + b.results i + c.results i < U32
        · have h3' : ∀ i : Fin 4,
              a.results i + (b.results i + c.results i) < U32 := fun i => by
            have := h3 i; omega
          rw [if_pos h3, if_pos h3']
          exact congrArg some (ResultCounter.ext fun i => Nat.add_assoc _ _ _)
        · have h3' : ¬ ∀ i : Fin 4,
              a.results i + (b.results i + c.results i) < U32 := fun hc =>
            h3 fun i => by have := hc i; omega
          rw [if_neg h3, if_neg h3']
      · have h3 : ¬ ∀ i : Fin 4,
            a.results i + b.results i + c.results i < U32 := fun hc =>
          hbc fun i => by have := hc i; omega
        simp only [ResultCounter.combine, if_pos hab, if_neg hbc,
          Option.some_bind, Option.none_bind, ResultCounter.results_mk]
        rw [if_neg h3]
    · by_cases hbc : ∀ i : Fin 4, b.results i + c.results i < U32
      · have h3 : ¬ ∀ i : Fin 4,
            a.results i + (b.results i + c.results i) < U32 := fun hc =>
          hab fun i => by have := hc i; omega
        simp only [ResultCounter.combine, if_pos hbc, if_neg hab,
          Option.some_bind, Option.none_bind, ResultCounter.results_mk]
        rw [if_neg h3]
      · simp [ResultCounter.combine, if_neg hab, if_neg hbc]

/-- Witness for the hypothesis-carrying conjunct of
combine_elementwise_comm_assoc at concrete counters. -/
theorem combine_elementwise_comm_assoc_witness :
    (ResultCounter.new 1 2 3 4).combine (ResultCounter.new 10 20 30 40)
      = some (ResultCounter.new 11 22 33 44)
    ∧ (ResultCounter.new 11 22 33 44).results 0
      = (ResultCounter.new 1 2 3 4).results 0
        + (ResultCounter.new 10 20 30 40).results 0 := by
  have hcond : ∀ i : Fin 4, (ResultCounter.new 1 2 3 4).results i
      + (ResultCounter.new 10 20 30 40).results i < U32 := by
    intro i
    fin_cases i <;> decide
  have hcomb : (ResultCounter.new 1 2 3 4).combine (ResultCounter.new 10 20 30 40)
      = some (ResultCounter.new 11 22 33 44) := by
    simp only [ResultCounter.combine, if_pos hcond]
    exact congrArg some (ResultCounter.ext fun i => by fin_cases i <;> decide)
  exact ⟨hcomb,
    (combine_elementwise_comm_assoc (ResultCounter.new 1 2 3 4)
      (ResultCounter.new 10 20 30 40) ResultCounter.default).1
      (ResultCounter.new 11 22 33 44) hcomb 0⟩

/-- C9: a counter whose total() returns 0 has all four counts equal to 0,
so each field of the converted distribution is the 0/0 division, whose
non-finite (NaN) f32 result is embedded as none: no valid-looking numeric
distribution is substituted. -/
theorem fromCounter_zero_total_all_nan :
    ∀ c : ResultCounter, c.sum = some 0 →
      (∀ r : GameResult, c.num_of r = 0)
      ∧ Probabilities.fromCounter c = some ⟨none, none, none, none⟩ := by
  intro c hsum
  obtain ⟨htot, -⟩ := ResultCounter.sum_eq_some.mp hsum
  have h0 : c.results 0 = 0 := by omega
  have h1 : c.results 1 = 0 := by omega
  have h2 : c.results 2 = 0 := by omega
  have h3 : c.results 3 = 0 := by omega
  constructor
  · intro r
    cases r <;>
      simp [ResultCounter.num_of, GameResult.toIndex, h0, h1, h2, h3]
  · simp [Probabilities.fromCounter, hsum, fdiv]

/-- Witness for fromCounter_zero_total_all_nan at the default counter. -/
theorem fromCounter_zero_total_all_nan_witness :
    ResultCounter.default.sum = some 0
    ∧ ResultCounter.default.num_of .WinNormal = 0
    ∧ Probabilities.fromCounter ResultCounter.default
        = some ⟨none, none, none, none⟩ :=
  ⟨by decide,
    (fromCounter_zero_total_all_nan ResultCounter.default (by decide)).1 .WinNormal,
    (fromCounter_zero_total_all_nan ResultCounter.default (by decide)).2⟩

/-- Embeds coach::data::PositionRecord: an opaque position identifier and
the three persisted probabilities win (= win_normal + win_gammon), win_g
and lose_g. -/
structure PositionRecord where
  position_id : String
  win : ℚ
  win_g : ℚ
  lose_g : ℚ

/-- Embeds PositionRecord::new. The position is an opaque value of the
external position collaborator, abstracted by its type and its position_id
method. -/
def PositionRecord.new {P : Type} (positionId : P → String) (position : P)
    (probabilities : Probabilities) : PositionRecord :=
  { position_id := positionId position
    win := probabilities.win_normal + probabilities.win_gammon
    win_g := probabilities.win_gammon
    lose_g := probabilities.lose_gammon }

/-- Embeds coach::data::InputsRecord: the re-expanded four probabilities
plus the feature vector of the position. -/
structure InputsRecord where
  win_normal : ℚ
  win_gammon : ℚ
  lose_normal : ℚ
  lose_gammon : ℚ
  inputs : List ℚ

/-- Embeds InputsRecord::new. Position::from_id and the InputsGen trait
method inputs_for_single are external collaborators, abstracted as
function arguments (the Rust code is generic over the InputsGen type). -/
def InputsRecord.new {P : Type} (fromId : String → P)
    (inputsForSingle : P → List ℚ) (record : PositionRecord) : InputsRecord :=
  { win_normal := record.win - record.win_g
    win_gammon := record.win_g
    lose_normal := 1 - record.win - record.lose_g
    lose_gammon := record.lose_g
    inputs := inputsForSingle (fromId record.position_id) }

/-- C1: for every position and every valid distribution (non-negative
fields summing to 1), expanding the compact record built from them
reproduces all four fields within 1e-6 (in fact exactly, in exact
arithmetic). -/
theorem inputs_record_round_trip :
    ∀ {P : Type} (positionId : P → String) (fromId : String → P)
      (inputsForSingle : P → List ℚ) (position : P) (p : Probabilities),
      0 ≤ p.win_normal → 0 ≤ p.win_gammon → 0 ≤ p.lose_normal →
      0 ≤ p.lose_gammon →
      p.win_normal + p.win_gammon + p.lose_normal + p.lose_gammon = 1 →
      |(InputsRecord.new fromId inputsForSingle
          (PositionRecord.new positionId position p)).win_normal
        - p.win_normal| ≤ 1/1000000
      ∧ |(InputsRecord.new fromId inputsForSingle
          (PositionRecord.new positionId position p)).win_gammon
        - p.win_gammon| ≤ 1/1000000
      ∧ |(InputsRecord.new fromId inputsForSingle
          (PositionRecord.new positionId position p)).lose_normal
        - p.lose_normal| ≤ 1/1000000
      ∧ |(InputsRecord.new fromId inputsForSingle
          (PositionRecord.new positionId position p)).lose_gammon
        - p.lose_gammon| ≤ 1/1000000 := by
  intro P positionId fromId inputsForSingle position p h1 h2 h3 h4 hsum
  simp only [InputsRecord.new, PositionRecord.new]
  refine ⟨?_, ?_, ?_, ?_⟩ <;> rw [abs_le] <;> constructor <;> linarith

/-- Witness for inputs_record_round_trip at a concrete valid
distribution. -/
theorem inputs_record_round_trip_witness :
    ((0:ℚ) ≤ 1/2 ∧ (0:ℚ) ≤ 1/4 ∧ (0:ℚ) ≤ 1/8 ∧ (0:ℚ) ≤ 1/8
      ∧ (1/2 + 1/4 + 1/8 + 1/8 : ℚ) = 1)
    ∧ |(InputsRecord.new (fun _ => ()) (fun _ => [])
        (PositionRecord.new (fun _ : Unit => "") ()
          ⟨1/2, 1/4, 1/8, 1/8⟩)).win_normal - 1/2| ≤ 1/1000000 :=
  ⟨⟨by norm_num, by norm_num, by norm_num, by norm_num, by norm_num⟩,
    (inputs_record_round_trip (fun _ : Unit => "") (fun _ => ()) (fun _ => [])
      () ⟨1/2, 1/4, 1/8, 1/8⟩ (by norm_num) (by norm_num) (by norm_num)
      (by norm_num) (by norm_num)).1⟩

/-- Embeds the Display implementation of Probabilities (used when writing
CSV data): the four fields rendered in the fixed order win_normal,
win_gammon, lose_normal, lose_gammon, separated by single semicolons (the
format string holds four placeholders). The standard f32-to-text rendering
is abstracted as a function argument; the written output is modelled as
its character sequence. -/
def displayChars (render : ℚ → List Char) (p : Probabilities) : List Char :=
  render p.win_normal ++ ';' :: render p.win_gammon
    ++ ';' :: render p.lose_normal ++ ';' :: render p.lose_gammon

/-- Embeds Probabilities::csv_header. -/
def Probabilities.csv_header : String :=
  "win_normal;win_gammon;lose_normal;lose_gammon"

/-- The field of a Probabilities value denoted by a column name of the CSV
header; used to state the field-for-field lock-step between the header and
the Display field order. -/
def fieldNamed (p : Probabilities) (name : List Char) : Option ℚ :=
  if name = String.toList "win_normal" then some p.win_normal
  else if name = String.toList "win_gammon" then some p.win_gammon
  else if name = String.toList "lose_normal" then some p.lose_normal
  else if name = String.toList "lose_gammon" then some p.lose_gammon
  else none

/-- C4: for any semicolon-free numeric rendering, the Display output splits
on the delimiter into exactly the four rendered fields in the order
win_normal, win_gammon, lose_normal, lose_gammon; the csv_header splits
into exactly four names, and name by name these denote exactly the fields
rendered at the same positions. -/
theorem display_four_fields_header_lock_step :
    ∀ (render : ℚ → List Char) (p : Probabilities),
      (∀ q : ℚ, ';' ∉ render q) →
      (displayChars render p).splitOn ';'
          = [render p.win_normal, render p.win_gammon,
             render p.lose_normal, render p.lose_gammon]
      ∧ (Probabilities.csv_header.toList).splitOn ';'
          = [String.toList "win_normal", String.toList "win_gammon",
             String.toList "lose_normal", String.toList "lose_gammon"]
      ∧ ((Probabilities.csv_header.toList).splitOn ';').map (fieldNamed p)
          = [some p.win_normal, some p.win_gammon,
             some p.lose_normal, some p.lose_gammon] := by
  intro render p h
  have hd : displayChars render p
      = [';'].intercalate [render p.win_normal, render p.win_gammon,
          render p.lose_normal, render p.lose_gammon] := by
    simp [displayChars, List.intercalate, List.intersperse]
  have hsplit : (Probabilities.csv_header.toList).splitOn ';'
      = [String.toList "win_normal", String.toList "win_gammon",
         String.toList "lose_normal", String.toList "lose_gammon"] := by
    decide
  refine ⟨?_, hsplit, ?_⟩
  · rw [hd]
    refine List.splitOn_intercalate
      [render p.win_normal, render p.win_gammon,
        render p.lose_normal, render p.lose_gammon] ';' ?_ (by simp)
    intro l hl
    simp only [List.mem_cons, List.not_mem_nil, or_false] at hl
    rcases hl with rfl | rfl | rfl | rfl <;> exact h _
  · rw [hsplit]
    simp [fieldNamed]

/-- Witness for display_four_fields_header_lock_step with a concrete
semicolon-free rendering. -/
theorem display_four_fields_header_lock_step_witness :
    (displayChars (fun _ : ℚ => ['0']) ⟨0, 0, 0, 0⟩).splitOn ';'
      = [['0'], ['0'], ['0'], ['0']] := by
  have h : ∀ q : ℚ, ';' ∉ (fun _ : ℚ => ['0']) q := by
    intro q
    show ';' ∉ (['0'] : List Char)
    decide
  exact (display_four_fields_header_lock_step (fun _ : ℚ => ['0'])
    ⟨0, 0, 0, 0⟩ h).1
